import Mathlib

/-!
# Verification of the go-hash-player hash-chain encoder and decoder

A shallow embedding of the repository's core: the `encoder` package
(`Encoder.PreProcess`, `Encoder.Request`, `Encoder.Close`, `Encoder.getBlockInfo`,
`Encoder.coerceBlockSize`) and the `decoder` package (`Decode`).

Modelling choices, stated once:

* Bytes are `Nat`; a file is its content, a `List Nat` (the Go code reads a
  file named `Encoder.FileName`; the embedding replaces the name by the bytes
  the reads would see, and `os.Stat`/`os.Open` on that regular file succeed).
* `crypto/sha256` is embedded as an executable FIPS 180-4 SHA-256 over byte
  lists (`sha256` below); both the encoder and the decoder call it, exactly as
  both Go packages call `crypto/sha256`.
* Go `int64` arithmetic is `Int` with `Int.tdiv`/`Int.tmod`, which share Go's
  truncate-toward-zero convention; the file sizes and block sizes of interest
  are far below `2^63`, so wraparound never matters.
* The cache directory holds one file `<i>.sha256` per block index `i`; it is
  embedded as an association list from the index (an `int64`, hence `Int`) to
  the 32 written bytes, in write order.
* `os.File.Read` on a regular file fills the buffer from the current offset
  with the bytes available there, leaves the rest of the buffer zero, and
  reports `io.EOF` only when the offset is at or past end-of-file with a
  non-empty buffer (`readBlock`, and the explicit EOF checks at the call
  sites).
* The stream file handle `Encoder.file` (`*os.File`) is embedded as the
  three-state `FileHandle`: the nil pointer, an open handle, a closed handle.
  Per the Go standard library, a method call on a nil `*os.File` returns
  `os.ErrInvalid` (the receiver is checked, it is not dereferenced), and
  `Close` on an already-closed file returns `os.ErrClosed`.
-/

namespace HashPlayer

/-! ## SHA-256 (`crypto/sha256`), executable over byte lists -/

/-- Truncate to a 32-bit word, as Go `uint32` arithmetic wraps. -/
def w32 (x : Nat) : Nat := x % 4294967296

/-- Right rotation of a 32-bit word by `n` bits (`0 < n < 32`). -/
def rotr (n x : Nat) : Nat := w32 (x >>> n + x <<< (32 - n))

def ch (x y z : Nat) : Nat := (x &&& y) ^^^ ((x ^^^ 4294967295) &&& z)

def maj (x y z : Nat) : Nat := ((x &&& y) ^^^ (x &&& z)) ^^^ (y &&& z)

def bsig0 (x : Nat) : Nat := (rotr 2 x ^^^ rotr 13 x) ^^^ rotr 22 x

def bsig1 (x : Nat) : Nat := (rotr 6 x ^^^ rotr 11 x) ^^^ rotr 25 x

def ssig0 (x : Nat) : Nat := (rotr 7 x ^^^ rotr 18 x) ^^^ (x >>> 3)

def ssig1 (x : Nat) : Nat := (rotr 17 x ^^^ rotr 19 x) ^^^ (x >>> 10)

/-- The 64 SHA-256 round constants. -/
def sha256K : List Nat :=
  [1116352408, 1899447441, 3049323471, 3921009573, 961987163,
   1508970993, 2453635748, 2870763221, 3624381080, 310598401,
   607225278, 1426881987, 1925078388, 2162078206, 2614888103,
   3248222580, 3835390401, 4022224774, 264347078, 604807628,
   770255983, 1249150122, 1555081692, 1996064986, 2554220882,
   2821834349, 2952996808, 3210313671, 3336571891, 3584528711,
   113926993, 338241895, 666307205, 773529912, 1294757372,
   1396182291, 1695183700, 1986661051, 2177026350, 2456956037,
   2730485921, 2820302411, 3259730800, 3345764771, 3516065817,
   3600352804, 4094571909, 275423344, 430227734, 506948616,
   659060556, 883997877, 958139571, 1322822218, 1537002063,
   1747873779, 1955562222, 2024104815, 2227730452, 2361852424,
   2428436474, 2756734187, 3204031479, 3329325298]

/-- Group big-endian bytes into 32-bit words. -/
def toWords : List Nat → List Nat
  | a :: b :: c :: d :: r => (((a * 256 + b) * 256 + c) * 256 + d) :: toWords r
  | _ => []

/-- One message-schedule extension step. -/
def schedStep (w2 w7 w15 w16 : Nat) : Nat := w32 (ssig1 w2 + w7 + ssig0 w15 + w16)

/-- Extend the reversed word list by `k` scheduled words. -/
def extendW : Nat → List Nat → List Nat
  | 0, acc => acc
  | k + 1, acc =>
      extendW k (schedStep (acc.getD 1 0) (acc.getD 6 0) (acc.getD 14 0) (acc.getD 15 0) :: acc)

/-- The 64-entry SHA-256 message schedule of a 16-word block. -/
def msgSchedule (ws : List Nat) : List Nat := (extendW 48 ws.reverse).reverse

/-- The eight 32-bit working variables of the SHA-256 compression function. -/
structure H8 where
  a : Nat
  b : Nat
  c : Nat
  d : Nat
  e : Nat
  f : Nat
  g : Nat
  h : Nat
deriving DecidableEq

def initH : H8 :=
  ⟨1779033703, 3144134277, 1013904242, 2773480762,
   1359893119, 2600822924, 528734635, 1541459225⟩

def round (s : H8) (kt wt : Nat) : H8 :=
  let t1 := w32 (s.h + bsig1 s.e + ch s.e s.f s.g + kt + wt)
  let t2 := w32 (bsig0 s.a + maj s.a s.b s.c)
  ⟨w32 (t1 + t2), s.a, s.b, s.c, w32 (s.d + t1), s.e, s.f, s.g⟩

def rounds (s : H8) : List (Nat × Nat) → H8
  | [] => s
  | (kt, wt) :: r => rounds (round s kt wt) r

/-- Compress one 64-byte chunk into the running state. -/
def compress (s : H8) (chunk : List Nat) : H8 :=
  let w := msgSchedule (toWords chunk)
  let t := rounds s (sha256K.zip w)
  ⟨w32 (s.a + t.a), w32 (s.b + t.b), w32 (s.c + t.c), w32 (s.d + t.d),
   w32 (s.e + t.e), w32 (s.f + t.f), w32 (s.g + t.g), w32 (s.h + t.h)⟩

/-- `n`-byte big-endian encoding of `v`. -/
def be : Nat → Nat → List Nat
  | 0, _ => []
  | k + 1, v => be k (v >>> 8) ++ [v % 256]

/-- SHA-256 padding: `0x80`, zeros to 56 mod 64, then the 64-bit bit length. -/
def padMsg (m : List Nat) : List Nat :=
  m ++ 128 :: (List.replicate ((119 - m.length % 64) % 64) 0 ++ be 8 (m.length * 8))

/-- Split into 64-byte chunks; the first argument is fuel bounding the chunk count. -/
def chunksAux : Nat → List Nat → List (List Nat)
  | 0, _ => []
  | fuel + 1, l => if l = [] then [] else l.take 64 :: chunksAux fuel (l.drop 64)

def chunks64 (l : List Nat) : List (List Nat) := chunksAux l.length l

/-- SHA-256 of a byte list, as `crypto/sha256` computes it. -/
def sha256 (m : List Nat) : List Nat :=
  let s := (chunks64 (padMsg m)).foldl compress initH
  be 4 s.a ++ (be 4 s.b ++ (be 4 s.c ++ (be 4 s.d ++ (be 4 s.e ++ (be 4 s.f ++ (be 4 s.g ++ be 4 s.h))))))

/-- Sanity anchor: the FIPS 180-4 test vector for the empty message. -/
theorem sha256_nil_vector : sha256 [] =
    [0xe3, 0xb0, 0xc4, 0x42, 0x98, 0xfc, 0x1c, 0x14, 0x9a, 0xfb, 0xf4, 0xc8, 0x99, 0x6f, 0xb9, 0x24,
     0x27, 0xae, 0x41, 0xe4, 0x64, 0x9b, 0x93, 0x4c, 0xa4, 0x95, 0x99, 0x1b, 0x78, 0x52, 0xb8, 0x55] := by
  decide

/-- Sanity anchor: the FIPS 180-4 test vector for the message `abc`. -/
theorem sha256_abc_vector : sha256 [0x61, 0x62, 0x63] =
    [0xba, 0x78, 0x16, 0xbf, 0x8f, 0x01, 0xcf, 0xea, 0x41, 0x41, 0x40, 0xde, 0x5d, 0xae, 0x22, 0x23,
     0xb0, 0x03, 0x61, 0xa3, 0x96, 0x17, 0x7a, 0x9c, 0xb4, 0x10, 0xff, 0x61, 0xf2, 0x00, 0x15, 0xad] := by
  decide

theorem be_length (n v : Nat) : (be n v).length = n := by
  induction n generalizing v with
  | zero => rfl
  | succ k ih => simp [be, ih]

/-- A SHA-256 digest is always exactly 32 bytes, as `h.Sum(nil)` returns. -/
theorem sha256_length (m : List Nat) : (sha256 m).length = 32 := by
  simp [sha256, be_length]

/-! ## The `encoder` package -/

/-- The 32 zero bytes `make([]byte, 32)`: the terminal sentinel. -/
def zero32 : List Nat := List.replicate 32 0

/-- `f.Seek(off, 0)` followed by `f.Read(buf)` with `len(buf) = n` on the
regular file whose content is `file`: the buffer receives the bytes available
at offset `off`, and keeps its zero fill beyond them. -/
def readBlock (file : List Nat) (off n : Nat) : List Nat :=
  let got := (file.drop off).take n
  got ++ List.replicate (n - got.length) 0

/-- Reading the cache entry of block index `i` (`os.ReadFile(e.hashFile(i))`);
`none` is a failing read, a cache miss. -/
def lookupC : List (Int × List Nat) → Int → Option (List Nat)
  | [], _ => none
  | (k, v) :: r, i => if i = k then some v else lookupC r i

/-- The `*os.File` field `Encoder.file`: the nil pointer, an open handle, or a
handle that has been closed. -/
inductive FileHandle where
  | nil
  | opened
  | closed
deriving DecidableEq

/-- The `encoder.Encoder` struct. `fileData` stands for the content of the
regular file `FileName` names; `cache` for the hash files under the cache
directory keyed by block index (the path-derived cache key is a bijective
renaming of the directory and is dropped). -/
structure Encoder where
  fileData : List Nat
  BlockSize : Int
  numBlocks : Int
  highestBlockSize : Int
  cache : List (Int × List Nat)
  handle : FileHandle
deriving DecidableEq

instance : Inhabited Encoder := ⟨⟨[], 0, 0, 0, [], .nil⟩⟩

/-- `Encoder.coerceBlockSize`: a non-positive block size falls back to the
documented default of 1024 (the warning print has no observable effect here). -/
def Encoder.coerceBlockSize (blockSize : Int) : Int :=
  if blockSize ≤ 0 then 1024 else blockSize

/-- `Encoder.getBlockInfo`: `numBlocks = (fileSize-1)/BlockSize + 1` and
`highestBlockSize = (fileSize-1)%BlockSize + 1` in Go `int64` arithmetic,
i.e. `Int.tdiv`/`Int.tmod` (truncation toward zero). -/
def Encoder.getBlockInfo (blockSize fileSize : Int) : Int × Int :=
  (Int.tdiv (fileSize - 1) blockSize + 1, Int.tmod (fileSize - 1) blockSize + 1)

/-- The one I/O failure `PreProcess` can hit in the embedding: `f.Read`
returning `io.EOF` (seeks of nonnegative offsets and cache writes succeed). -/
inductive PPErr where
  | readEof
deriving DecidableEq

/-- The pre-processing loop `for i := e.numBlocks - 1; i >= 0; i--`. The
counter argument is `i + 1`, so `c` processes indexes `c-1, …, 0`. `len` is
the current buffer length (`highestBlockSize` on the first iteration, then
`BlockSize`), `parent` the carried hash (`zero32` initially). Each iteration
seeks to `BlockSize*i`, reads the buffer, hashes `buffer ++ parent`, writes
the digest under index `i`, and carries it. -/
def ppLoop (file : List Nat) (bs : Nat) : Nat → Nat → List Nat → Except PPErr (List (Int × List Nat))
  | 0, _, _ => .ok []
  | c + 1, len, parent =>
      if 0 < len ∧ file.length ≤ bs * c then .error .readEof
      else
        match ppLoop file bs c bs (sha256 (readBlock file (bs * c) len ++ parent)) with
        | .ok rest => .ok ((Int.ofNat c, sha256 (readBlock file (bs * c) len ++ parent)) :: rest)
        | .error er => .error er

/-- `Encoder.PreProcess` on the cache-miss path (no cache directory exists for
the file yet), for a regular file: coerce the block size, compute the block
info from the file size, then run the backward hashing loop and populate the
cache. The streaming handle `e.file` is untouched (the pass opens and closes
its own descriptor). -/
def Encoder.PreProcess (fileData : List Nat) (blockSize : Int) : Except PPErr Encoder :=
  let bs := Encoder.coerceBlockSize blockSize
  let info := Encoder.getBlockInfo bs (fileData.length : Int)
  match ppLoop fileData bs.toNat info.1.toNat info.2.toNat zero32 with
  | .ok writes => .ok ⟨fileData, bs, info.1, info.2, writes, .nil⟩
  | .error er => .error er

/-- The distinguishable `error` values `Encoder.Request` can return. -/
inductive RErr where
  | eof
  | invalidSeek
  | readEof
  | cacheMiss
  | fileClosed
deriving DecidableEq

/-- A Go `([]byte, error)` return: the byte slice (`none` is a nil slice) and
the error, or a runtime panic (`make` with a negative size). -/
inductive ReqResult where
  | ret (bytes : Option (List Nat)) (err : Option RErr)
  | panicked
deriving DecidableEq

/-- `Encoder.Request`. Request 0 reads hash file 0. Otherwise
`blockIndex = n-1`; past `numBlocks` it is `io.EOF` with no state change.
In range, the file is opened if the pointer is nil, the encoder seeks to
`BlockSize*blockIndex`, reads `highestBlockSize` bytes for the last block and
`BlockSize` otherwise, and appends the cached hash of index `n` — or 32 zero
bytes for the last block. -/
def Encoder.Request (e : Encoder) (n : Int) : ReqResult × Encoder :=
  if n = 0 then
    (match lookupC e.cache 0 with
     | some h => .ret (some h) none
     | none => .ret none (some .cacheMiss), e)
  else
    let blockIndex := n - 1
    if e.numBlocks ≤ blockIndex then (.ret none (some .eof), e)
    else
      let e' := if e.handle = .nil then { e with handle := .opened } else e
      if e'.handle = .closed then (.ret none (some .fileClosed), e')
      else if e.BlockSize * blockIndex < 0 then (.ret none (some .invalidSeek), e')
      else
        let off := (e.BlockSize * blockIndex).toNat
        let readSize := if blockIndex = e.numBlocks - 1 then e.highestBlockSize else e.BlockSize
        if readSize < 0 then (.panicked, e')
        else
          let buf := readBlock e.fileData off readSize.toNat
          if 0 < readSize.toNat ∧ e.fileData.length ≤ off then (.ret (some buf) (some .readEof), e')
          else if blockIndex ≠ e.numBlocks - 1 then
            match lookupC e.cache n with
            | some h => (.ret (some (buf ++ h)) none, e')
            | none => (.ret (some buf) (some .cacheMiss), e')
          else (.ret (some (buf ++ zero32)) none, e')

/-- Errors of `Encoder.Close`: `os.ErrInvalid` from a nil `*os.File` receiver,
`os.ErrClosed` from a second close. -/
inductive CloseErr where
  | errInvalid
  | errClosed
deriving DecidableEq

/-- `Encoder.Close`, i.e. `return e.file.Close()`. On a nil `*os.File` the
standard library returns `os.ErrInvalid` (`Close` checks its receiver before
touching it); on an open handle it closes it; on a closed one it returns
`os.ErrClosed`. -/
def Encoder.Close (e : Encoder) : Option CloseErr × Encoder :=
  match e.handle with
  | .nil => (some .errInvalid, e)
  | .opened => (none, { e with handle := .closed })
  | .closed => (some .errClosed, e)

/-! ## The `decoder` package -/

/-- Outcome of the byte-comparison loop `for i := 0; i < 32; i++`:
all 32 positions matched, a mismatch returned early, or an index moved past
the end of a slice (a Go out-of-range panic). -/
inductive CmpRes where
  | allEqual
  | mismatch
  | oob
deriving DecidableEq

/-- The body of the comparison loop, with the remaining iteration count
`32 - i` as structural fuel: at index `i`, evaluate `clientHash[i]` and
`hash[i]` (out of range is a panic), return on a mismatch, otherwise
advance. -/
def cmpAux (clientHash hash : List Nat) : Nat → Nat → CmpRes
  | 0, _ => .allEqual
  | fuel + 1, i =>
      match clientHash.get? i, hash.get? i with
      | some c, some t => if c ≠ t then .mismatch else cmpAux clientHash hash fuel (i + 1)
      | _, _ => .oob

/-- The comparison loop of `Decode`, `for i := 0; i < 32; i++`, entered at
index `i`. -/
def cmpLoop (clientHash hash : List Nat) (i : Nat) : CmpRes :=
  if i < 32 then cmpAux clientHash hash (32 - i) i else .allEqual

/-- The one-step unfolding of the comparison loop. -/
theorem cmpLoop_eq (cl h : List Nat) (i : Nat) :
    cmpLoop cl h i =
      (if i < 32 then
        match cl.get? i, h.get? i with
        | some c, some t => if c ≠ t then CmpRes.mismatch else cmpLoop cl h (i + 1)
        | _, _ => CmpRes.oob
      else CmpRes.allEqual) := by
  have haux : cmpAux cl h (32 - (i + 1)) (i + 1) = cmpLoop cl h (i + 1) := by
    rw [cmpLoop]
    by_cases hi1 : i + 1 < 32
    · rw [if_pos hi1]
    · rw [if_neg hi1, show 32 - (i + 1) = 0 from by omega, cmpAux]
  rw [cmpLoop]
  by_cases hi : i < 32
  · rw [if_pos hi, if_pos hi, show 32 - i = (32 - (i + 1)) + 1 from by omega, cmpAux]
    cases hx : cl.get? i <;> cases hy : h.get? i
    · rfl
    · rfl
    · rfl
    · rw [haux]
  · rw [if_neg hi, if_neg hi]

/-- A `Decode` outcome: the too-short error, the verification-failure error,
an out-of-range panic from the comparison loop, or the verified block with
the next trusted hash. -/
inductive DecodeResult where
  | tooShort (len : Nat)
  | verificationFailed
  | panicked
  | ok (block nextHash : List Nat)
deriving DecidableEq

/-- `decoder.Decode`: reject candidates of at most 32 bytes, recompute
SHA-256 of the whole candidate, compare 32 bytes against the trusted hash,
and on success split off the 32-byte trailer. -/
def Decode (hash hashedBlock : List Nat) : DecodeResult :=
  if (hashedBlock.length : Int) - 32 ≤ 0 then .tooShort hashedBlock.length
  else
    match cmpLoop (sha256 hashedBlock) hash 0 with
    | .mismatch => .verificationFailed
    | .oob => .panicked
    | .allEqual =>
        .ok (hashedBlock.take (hashedBlock.length - 32)) (hashedBlock.drop (hashedBlock.length - 32))

/-! ## The consumer loop (`main.Stream`'s request/verify cadence) -/

/-- A Go `([]byte, error)` pair the consumer accepts: bytes present, no
error. Anything else aborts the stream. -/
def retBytes : ReqResult → Option (List Nat)
  | .ret (some bytes) none => some bytes
  | _ => none

/-- A successful verification: the block and the next trusted hash. -/
def okSplit : DecodeResult → Option (List Nat × List Nat)
  | .ok block nextHash => some (block, nextHash)
  | _ => none

/-- Serve requests `r, r+1, …` (`fuel` many) against the encoder, feeding each
response and the running trusted hash through `Decode` and concatenating the
verified blocks; `none` as soon as any request errs, returns no bytes, or any
verification fails. -/
def serveLoop (e : Encoder) (trusted : List Nat) (r : Int) : Nat → Option (List Nat)
  | 0 => some []
  | fuel + 1 =>
      (retBytes (Encoder.Request e r).1).bind fun bytes =>
        (okSplit (Decode trusted bytes)).bind fun p =>
          (serveLoop (Encoder.Request e r).2 p.2 (r + 1) fuel).map (p.1 ++ ·)

/-! ## The specification's chain of hashes -/

/-- Block `i` of the data model: bytes `[BlockSize*i, BlockSize*i + len)` of
the file, where `len` is `highestBlockSize` for the last block index and
`BlockSize` otherwise. -/
def specBlock (file : List Nat) (bs nb hbs i : Nat) : List Nat :=
  (file.drop (bs * i)).take (if i = nb - 1 then hbs else bs)

/-- The chain of hashes, built from the end: `chainFrom 0` is the hash of the
last block padded with `zero32`, and `chainFrom (k+1)` hashes block
`nb-1-(k+1)` followed by `chainFrom k`. -/
def chainFrom (file : List Nat) (bs nb hbs : Nat) : Nat → List Nat
  | 0 => sha256 (specBlock file bs nb hbs (nb - 1) ++ zero32)
  | k + 1 => sha256 (specBlock file bs nb hbs (nb - 1 - (k + 1)) ++ chainFrom file bs nb hbs k)

/-- The chain hash of block index `i`:
`chainHash (nb-1) = SHA256(block[nb-1] ++ zero32)` and
`chainHash i = SHA256(block[i] ++ chainHash (i+1))` (proved below). -/
def chainHash (file : List Nat) (bs nb hbs i : Nat) : List Nat :=
  chainFrom file bs nb hbs (nb - 1 - i)

/-! ## Lemmas: the chain recurrence, arithmetic bridges, loop characterization -/

theorem zero32_length : zero32.length = 32 := by simp [zero32]

theorem chainHash_length (file : List Nat) (bs nb hbs i : Nat) :
    (chainHash file bs nb hbs i).length = 32 := by
  cases h : nb - 1 - i with
  | zero => simp [chainHash, h, chainFrom, sha256_length]
  | succ k => simp [chainHash, h, chainFrom, sha256_length]

/-- The chain recurrence at the last block, as the claim states it. -/
theorem chainHash_last (file : List Nat) (bs nb hbs : Nat) :
    chainHash file bs nb hbs (nb - 1) =
      sha256 (specBlock file bs nb hbs (nb - 1) ++ zero32) := by
  simp [chainHash, chainFrom]

/-- The chain recurrence below the last block, as the claim states it. -/
theorem chainHash_step (file : List Nat) (bs nb hbs i : Nat) (h : i + 1 < nb) :
    chainHash file bs nb hbs i =
      sha256 (specBlock file bs nb hbs i ++ chainHash file bs nb hbs (i + 1)) := by
  have h1 : nb - 1 - i = (nb - 1 - (i + 1)) + 1 := by omega
  have h2 : nb - 1 - ((nb - 1 - (i + 1)) + 1) = i := by omega
  rw [chainHash, h1, chainFrom, h2, chainHash]

/-- A read wholly inside the file is exact: no zero fill remains. -/
theorem readBlock_exact (file : List Nat) (off n : Nat) (h : off + n ≤ file.length) :
    readBlock file off n = (file.drop off).take n := by
  have hl : ((file.drop off).take n).length = n := by
    simp [List.length_take, List.length_drop]
    omega
  simp [readBlock, hl]

/-- `Int.tdiv` on nonnegative arguments is `Nat` division. -/
theorem tdiv_coe (a b : Nat) : Int.tdiv (a : Int) (b : Int) = ((a / b : Nat) : Int) := rfl

/-- `Int.tmod` on nonnegative arguments is the `Nat` remainder. -/
theorem tmod_coe (a b : Nat) : Int.tmod (a : Int) (b : Int) = ((a % b : Nat) : Int) := rfl

/-- The cache content pre-processing leaves behind: the chain hashes of
indexes `c-1, …, 0`, keyed by index, most recent first write first. -/
def chainWrites (file : List Nat) (bs nb hbs c : Nat) : List (Int × List Nat) :=
  (List.range c).reverse.map fun i => (Int.ofNat i, chainHash file bs nb hbs i)

/-- `getBlockInfo` for a nonempty file: both components are the `Nat`-level
formulas of the data model. -/
theorem getBlockInfo_pos (fs bs : Nat) (hf : 1 ≤ fs) :
    Encoder.getBlockInfo (bs : Int) (fs : Int) =
      ((((fs - 1) / bs + 1 : Nat) : Int), (((fs - 1) % bs + 1 : Nat) : Int)) := by
  have h1 : (fs : Int) - 1 = ((fs - 1 : Nat) : Int) := by omega
  rw [Encoder.getBlockInfo, h1, tdiv_coe, tmod_coe, Prod.mk.injEq]
  constructor <;> push_cast <;> ring

/-- `numBlocks * BlockSize` covers a nonempty file exactly up to the last
block: `bs * (nb - 1) + hbs = fs`. -/
theorem block_cover (fs bs : Nat) (hf : 1 ≤ fs) :
    bs * ((fs - 1) / bs + 1 - 1) + ((fs - 1) % bs + 1) = fs := by
  rw [Nat.add_sub_cancel]
  have := Nat.div_add_mod (fs - 1) bs
  omega

theorem hbs_le_bs (fs bs : Nat) (hb : 1 ≤ bs) : (fs - 1) % bs + 1 ≤ bs := by
  have := Nat.mod_lt (fs - 1) (show 0 < bs by omega)
  omega

/-- Characterization of the pre-processing loop on a nonempty file: counting
down from `c`, with the buffer length and carried hash of the iteration that
processes index `c-1`, it writes exactly the chain hashes of indexes
`c-1, …, 0` in that order. -/
theorem ppLoop_spec (file : List Nat) (bs nb hbs : Nat) (hb : 1 ≤ bs)
    (hf : 1 ≤ file.length)
    (hnb : nb = (file.length - 1) / bs + 1) (hh : hbs = (file.length - 1) % bs + 1) :
    ∀ c, c ≤ nb → ∀ len par, len = (if c = nb then hbs else bs) →
      par = (if c = nb then zero32 else chainFrom file bs nb hbs (nb - 1 - c)) →
      ppLoop file bs c len par = .ok (chainWrites file bs nb hbs c) := by
  have hcover : bs * (nb - 1) + hbs = file.length := by
    rw [hnb, hh]; exact block_cover _ _ hf
  have hhbs1 : 1 ≤ hbs := by rw [hh]; exact Nat.le_add_left 1 _
  have hhbsbs : hbs ≤ bs := by rw [hh]; exact hbs_le_bs _ _ hb
  have hnb1 : 1 ≤ nb := by rw [hnb]; exact Nat.le_add_left 1 _
  clear hnb hh
  intro c
  induction c with
  | zero => intro _ len par _ _; simp [ppLoop, chainWrites]
  | succ c ih =>
      intro hc len par hlen hpar
      have hcnb : c ≠ nb := by omega
      -- the read of this iteration stays inside the file
      have hofflt : bs * c + len ≤ file.length := by
        by_cases h : c + 1 = nb
        · rw [hlen, if_pos h]
          rw [show c = nb - 1 from by omega]
          omega
        · have hle : bs * (c + 1) ≤ bs * (nb - 1) := Nat.mul_le_mul_left bs (by omega)
          have hexp : bs * (c + 1) = bs * c + bs := by ring
          rw [hlen, if_neg h]
          omega
      have hlenpos : 1 ≤ len := by
        by_cases h : c + 1 = nb
        · rw [hlen, if_pos h]; omega
        · rw [hlen, if_neg h]; omega
      rw [ppLoop]
      have hnoerr : ¬(0 < len ∧ file.length ≤ bs * c) := by omega
      rw [if_neg hnoerr]
      have hbuf : readBlock file (bs * c) len = specBlock file bs nb hbs c := by
        rw [readBlock_exact file _ _ hofflt, specBlock]
        by_cases h : c + 1 = nb
        · rw [hlen, if_pos h, if_pos (show c = nb - 1 by omega)]
        · rw [hlen, if_neg h, if_neg (show ¬c = nb - 1 by omega)]
      have hhash : sha256 (readBlock file (bs * c) len ++ par) =
          chainFrom file bs nb hbs (nb - 1 - c) := by
        rw [hbuf]
        by_cases h : c + 1 = nb
        · have h0 : nb - 1 - c = 0 := by omega
          rw [hpar, if_pos h, h0, chainFrom]
          rw [show c = nb - 1 from by omega]
        · have h1 : nb - 1 - c = (nb - 1 - (c + 1)) + 1 := by omega
          rw [hpar, if_neg h, h1, chainFrom]
          rw [show nb - 1 - (nb - 1 - (c + 1) + 1) = c from by omega]
      rw [hhash]
      rw [ih (by omega) bs (chainFrom file bs nb hbs (nb - 1 - c)) (by simp [hcnb]) (by simp [hcnb])]
      simp [chainWrites, List.range_succ, chainHash]

/-- The encoder state `PreProcess` leaves behind (and `Request` then reads):
fields as computed, the cache fully written, the handle in state `hdl`. -/
def mkE (file : List Nat) (bs nb hbs : Nat) (hdl : FileHandle) : Encoder :=
  ⟨file, (bs : Int), (nb : Int), (hbs : Int), chainWrites file bs nb hbs nb, hdl⟩

theorem mkE_numBlocks (file : List Nat) (bs nb hbs : Nat) (hdl : FileHandle) :
    (mkE file bs nb hbs hdl).numBlocks = (nb : Int) := rfl

theorem mkE_highestBlockSize (file : List Nat) (bs nb hbs : Nat) (hdl : FileHandle) :
    (mkE file bs nb hbs hdl).highestBlockSize = (hbs : Int) := rfl

theorem mkE_handle (file : List Nat) (bs nb hbs : Nat) (hdl : FileHandle) :
    (mkE file bs nb hbs hdl).handle = hdl := rfl

/-- `PreProcess` on a nonempty regular file and positive block size: it
populates every field from `getBlockInfo` and the cache with the chain
hashes, and leaves the streaming handle nil. -/
theorem PreProcess_ok (file : List Nat) (bs : Nat) (hb : 1 ≤ bs) (hf : 1 ≤ file.length) :
    Encoder.PreProcess file (bs : Int) =
      .ok (mkE file bs ((file.length - 1) / bs + 1) ((file.length - 1) % bs + 1) .nil) := by
  have h1 : Encoder.coerceBlockSize (bs : Int) = (bs : Int) := if_neg (by omega)
  have hinfo := getBlockInfo_pos file.length bs hf
  simp only [Encoder.PreProcess, h1, hinfo, Int.toNat_ofNat]
  rw [ppLoop_spec file bs ((file.length - 1) / bs + 1) ((file.length - 1) % bs + 1) hb hf rfl rfl
    ((file.length - 1) / bs + 1) le_rfl _ _ (if_pos rfl).symm (if_pos rfl).symm]
  rfl

/-- Looking a block index up in the written cache returns its chain hash. -/
theorem lookup_chainWrites (file : List Nat) (bs nb hbs : Nat) :
    ∀ c j : Nat, j < c →
      lookupC (chainWrites file bs nb hbs c) (Int.ofNat j) =
        some (chainHash file bs nb hbs j) := by
  intro c
  induction c with
  | zero => intro j h; omega
  | succ c ih =>
      intro j hj
      rw [chainWrites, List.range_succ]
      simp only [List.reverse_append, List.reverse_cons, List.reverse_nil, List.nil_append,
        List.cons_append, List.map_cons, lookupC]
      by_cases h : j = c
      · rw [if_pos (by rw [h])]
        rw [h]
      · rw [if_neg (by simp [Int.ofNat_inj]; omega)]
        exact ih j (by omega)

/-- The length of block `i` is `highestBlockSize` for the last index and
`BlockSize` otherwise, whenever `i < numBlocks` and the block-cover identity
holds. -/
theorem specBlock_length (file : List Nat) (bs nb hbs i : Nat)
    (hcover : bs * (nb - 1) + hbs = file.length) (hhbsbs : hbs ≤ bs) (hi : i < nb) :
    (specBlock file bs nb hbs i).length = (if i = nb - 1 then hbs else bs) := by
  rw [specBlock, List.length_take, List.length_drop]
  by_cases h : i = nb - 1
  · rw [if_pos h, h]
    omega
  · rw [if_neg h]
    have hle : bs * (i + 1) ≤ bs * (nb - 1) := Nat.mul_le_mul_left bs (by omega)
    have hexp : bs * (i + 1) = bs * i + bs := by ring
    omega

/-- Splitting a candidate `block ++ trailer` with a 32-byte trailer at
`length - 32` recovers the two parts. -/
theorem split_trailer (a x : List Nat) (hx : x.length = 32) :
    (a ++ x).take ((a ++ x).length - 32) = a ∧ (a ++ x).drop ((a ++ x).length - 32) = x := by
  have h : (a ++ x).length - 32 = a.length := by
    rw [List.length_append]; omega
  rw [h]
  exact ⟨List.take_left a x, List.drop_left a x⟩

/-- Request 0 returns the cached root hash and changes nothing. -/
theorem Request_root (file : List Nat) (bs nb hbs : Nat) (hdl : FileHandle) (hnb : 1 ≤ nb) :
    Encoder.Request (mkE file bs nb hbs hdl) 0 =
      (.ret (some (chainHash file bs nb hbs 0)) none, mkE file bs nb hbs hdl) := by
  have h0 : lookupC (chainWrites file bs nb hbs nb) 0 = some (chainHash file bs nb hbs 0) :=
    lookup_chainWrites file bs nb hbs nb 0 hnb
  simp only [Encoder.Request, mkE, if_pos, h0]

/-- Any request whose block index is at or past `numBlocks` returns
`(nil, io.EOF)` and leaves the encoder untouched. -/
theorem Request_eof (e : Encoder) (n : Int) (h1 : 1 ≤ n) (h2 : e.numBlocks ≤ n - 1) :
    Encoder.Request e n = (.ret none (some .eof), e) := by
  rw [Encoder.Request, if_neg (by omega), if_pos h2]

/-- An in-range block request `1 ≤ r ≤ nb` on the post-`PreProcess` state:
it returns the block bytes followed by the next chain hash (or the zero
sentinel for the last block), succeeds, and its only state change is that
the file handle is now open. -/
theorem Request_inrange (file : List Nat) (bs nb hbs : Nat) (hdl : FileHandle)
    (hne : hdl ≠ .closed) (hb : 1 ≤ bs)
    (hcover : bs * (nb - 1) + hbs = file.length)
    (hhbs1 : 1 ≤ hbs) (hhbsbs : hbs ≤ bs) (hnb : 1 ≤ nb)
    (r : Nat) (h1 : 1 ≤ r) (hr : r ≤ nb) :
    Encoder.Request (mkE file bs nb hbs hdl) (r : Int) =
      (.ret (some (specBlock file bs nb hbs (r - 1) ++
          (if r = nb then zero32 else chainHash file bs nb hbs r))) none,
       mkE file bs nb hbs .opened) := by
  have hbi : (r : Int) - 1 = ((r - 1 : Nat) : Int) := by omega
  have hprod : (bs : Int) * ((r - 1 : Nat) : Int) = ((bs * (r - 1) : Nat) : Int) := by
    push_cast; ring
  have hmul : bs * (r - 1) + bs ≤ bs * (nb - 1) + bs := by
    have := Nat.mul_le_mul_left bs (show r - 1 ≤ nb - 1 by omega)
    omega
  have hofflt : bs * (r - 1) < file.length := by
    have := Nat.mul_le_mul_left bs (show r - 1 ≤ nb - 1 by omega)
    omega
  have hcape : ∀ len : Nat, len = (if r = nb then hbs else bs) →
      bs * (r - 1) + len ≤ file.length := by
    intro len hlen
    by_cases h : r = nb
    · rw [hlen, if_pos h]
      have : r - 1 = nb - 1 := by omega
      rw [this]
      omega
    · rw [hlen, if_neg h]
      have hle : bs * (r - 1 + 1) ≤ bs * (nb - 1) := Nat.mul_le_mul_left bs (by omega)
      have hexp : bs * (r - 1 + 1) = bs * (r - 1) + bs := by ring
      omega
  simp only [Encoder.Request, mkE]
  rw [if_neg (show ¬(r : Int) = 0 by omega)]
  rw [if_neg (show ¬(nb : Int) ≤ (r : Int) - 1 by omega)]
  have hlook : ∀ h : r < nb, lookupC (chainWrites file bs nb hbs nb) (r : Int) =
      some (chainHash file bs nb hbs r) := fun h => lookup_chainWrites file bs nb hbs nb r h
  cases hdl with
  | closed => exact absurd rfl hne
  | nil =>
      rw [if_pos rfl]
      rw [if_neg (show ¬FileHandle.opened = FileHandle.closed by simp)]
      rw [hbi, hprod]
      rw [if_neg (show ¬((bs * (r - 1) : Nat) : Int) < 0 by omega)]
      by_cases h : r = nb
      · rw [if_pos (show ((r - 1 : Nat) : Int) = (nb : Int) - 1 by omega)]
        rw [if_neg (show ¬(hbs : Int) < 0 by omega), Int.toNat_ofNat, Int.toNat_ofNat]
        rw [readBlock_exact file _ _ (hcape hbs (by rw [if_pos h]))]
        rw [if_neg (show ¬(0 < hbs ∧ file.length ≤ bs * (r - 1)) by omega)]
        rw [if_neg (show ¬¬((r - 1 : Nat) : Int) = (nb : Int) - 1 by omega)]
        rw [if_pos h]
        have hsb : (file.drop (bs * (r - 1))).take hbs = specBlock file bs nb hbs (r - 1) := by
          rw [specBlock, if_pos (show r - 1 = nb - 1 by omega)]
        rw [hsb]
      · rw [if_neg (show ¬((r - 1 : Nat) : Int) = (nb : Int) - 1 by omega)]
        rw [if_neg (show ¬(bs : Int) < 0 by omega), Int.toNat_ofNat, Int.toNat_ofNat]
        rw [readBlock_exact file _ _ (hcape bs (by rw [if_neg h]))]
        rw [if_neg (show ¬(0 < bs ∧ file.length ≤ bs * (r - 1)) by omega)]
        rw [if_pos (show ¬((r - 1 : Nat) : Int) = (nb : Int) - 1 by omega)]
        rw [hlook (by omega)]
        rw [if_neg h]
        have hsb : (file.drop (bs * (r - 1))).take bs = specBlock file bs nb hbs (r - 1) := by
          rw [specBlock, if_neg (show ¬r - 1 = nb - 1 by omega)]
        rw [hsb]
  | opened =>
      rw [if_neg (show ¬FileHandle.opened = FileHandle.nil by simp)]
      rw [if_neg (show ¬FileHandle.opened = FileHandle.closed by simp)]
      rw [hbi, hprod]
      rw [if_neg (show ¬((bs * (r - 1) : Nat) : Int) < 0 by omega)]
      by_cases h : r = nb
      · rw [if_pos (show ((r - 1 : Nat) : Int) = (nb : Int) - 1 by omega)]
        rw [if_neg (show ¬(hbs : Int) < 0 by omega), Int.toNat_ofNat, Int.toNat_ofNat]
        rw [readBlock_exact file _ _ (hcape hbs (by rw [if_pos h]))]
        rw [if_neg (show ¬(0 < hbs ∧ file.length ≤ bs * (r - 1)) by omega)]
        rw [if_neg (show ¬¬((r - 1 : Nat) : Int) = (nb : Int) - 1 by omega)]
        rw [if_pos h]
        have hsb : (file.drop (bs * (r - 1))).take hbs = specBlock file bs nb hbs (r - 1) := by
          rw [specBlock, if_pos (show r - 1 = nb - 1 by omega)]
        rw [hsb]
      · rw [if_neg (show ¬((r - 1 : Nat) : Int) = (nb : Int) - 1 by omega)]
        rw [if_neg (show ¬(bs : Int) < 0 by omega), Int.toNat_ofNat, Int.toNat_ofNat]
        rw [readBlock_exact file _ _ (hcape bs (by rw [if_neg h]))]
        rw [if_neg (show ¬(0 < bs ∧ file.length ≤ bs * (r - 1)) by omega)]
        rw [if_pos (show ¬((r - 1 : Nat) : Int) = (nb : Int) - 1 by omega)]
        rw [hlook (by omega)]
        rw [if_neg h]
        have hsb : (file.drop (bs * (r - 1))).take bs = specBlock file bs nb hbs (r - 1) := by
          rw [specBlock, if_neg (show ¬r - 1 = nb - 1 by omega)]
        rw [hsb]

/-- A block-sized bite out of the middle of a list, put back in place. -/
theorem drop_chunk (file : List Nat) (m n : Nat) :
    (file.drop m).take n ++ file.drop (m + n) = file.drop m := by
  have h := List.take_append_drop n (file.drop m)
  rw [List.drop_drop] at h
  simpa [Nat.add_comm] using h

/-- The comparison loop on two copies of a 32-byte digest reports equality. -/
theorem cmpLoop_self (l : List Nat) (hl : l.length = 32) : ∀ i, cmpLoop l l i = .allEqual := by
  suffices H : ∀ fuel i, 32 - i ≤ fuel → cmpLoop l l i = .allEqual from
    fun i => H 32 i (by omega)
  intro fuel
  induction fuel with
  | zero =>
      intro i h
      rw [cmpLoop_eq, if_neg (by omega)]
  | succ f ih =>
      intro i h
      rw [cmpLoop_eq]
      by_cases hi : i < 32
      · rw [if_pos hi]
        cases hx : l.get? i with
        | none =>
            rw [List.get?_eq_none] at hx
            omega
        | some c =>
            simp only [hx]
            rw [if_neg (not_not_intro rfl)]
            exact ih (i + 1) (by omega)
      · rw [if_neg hi]

/-- The comparison loop against a full 32-byte trusted hash: it reports
equality exactly when all positions from `i` on agree, and it can never
run out of range. -/
theorem cmpLoop_char32 (cl t : List Nat) (hcl : cl.length = 32) (ht : t.length = 32) :
    ∀ i, (cmpLoop cl t i = .allEqual ↔ ∀ j, i ≤ j → j < 32 → cl.get? j = t.get? j) ∧
      cmpLoop cl t i ≠ .oob := by
  suffices H : ∀ fuel i, 32 - i ≤ fuel →
      ((cmpLoop cl t i = .allEqual ↔ ∀ j, i ≤ j → j < 32 → cl.get? j = t.get? j) ∧
        cmpLoop cl t i ≠ .oob) from fun i => H 32 i (by omega)
  intro fuel
  induction fuel with
  | zero =>
      intro i h
      rw [cmpLoop_eq, if_neg (by omega)]
      refine ⟨⟨fun _ j hj1 hj2 => by omega, fun _ => rfl⟩, by simp⟩
  | succ f ih =>
      intro i h
      by_cases hi : i < 32
      · rw [cmpLoop_eq, if_pos hi]
        cases hx : cl.get? i with
        | none => rw [List.get?_eq_none] at hx; omega
        | some c =>
            cases hy : t.get? i with
            | none => rw [List.get?_eq_none] at hy; omega
            | some d =>
                simp only [hx, hy]
                by_cases hcd : c = d
                · rw [if_neg (not_not_intro hcd)]
                  refine ⟨?_, (ih (i + 1) (by omega)).2⟩
                  rw [(ih (i + 1) (by omega)).1]
                  constructor
                  · intro hall j hj1 hj2
                    rcases Nat.eq_or_lt_of_le hj1 with heq | hlt
                    · rw [← heq, hx, hy, hcd]
                    · exact hall j (by omega) hj2
                  · intro hall j hj1 hj2
                    exact hall j (by omega) hj2
                · rw [if_pos hcd]
                  refine ⟨⟨fun habs => absurd habs (by simp), fun hall => ?_⟩, by simp⟩
                  have := hall i le_rfl hi
                  rw [hx, hy] at this
                  exact absurd (Option.some.inj this) hcd
      · rw [cmpLoop_eq, if_neg hi]
        refine ⟨⟨fun _ j hj1 hj2 => by omega, fun _ => rfl⟩, by simp⟩

/-- The comparison loop against a trusted hash shorter than 32 bytes: from
any start `i` within the short hash, it panics out of range exactly when all
positions from `i` to its end agree, and it can never report full equality. -/
theorem cmpLoop_short (cl t : List Nat) (hcl : cl.length = 32) (ht : t.length < 32) :
    ∀ i, i ≤ t.length →
      ((cmpLoop cl t i = .oob ↔ ∀ j, i ≤ j → j < t.length → cl.get? j = t.get? j) ∧
        cmpLoop cl t i ≠ .allEqual) := by
  suffices H : ∀ fuel i, t.length - i ≤ fuel → i ≤ t.length →
      ((cmpLoop cl t i = .oob ↔ ∀ j, i ≤ j → j < t.length → cl.get? j = t.get? j) ∧
        cmpLoop cl t i ≠ .allEqual) from fun i hi => H t.length i (by omega) hi
  intro fuel
  induction fuel with
  | zero =>
      intro i h hle
      have hit : i = t.length := by omega
      rw [cmpLoop_eq, if_pos (by omega)]
      cases hx : cl.get? i with
      | none => rw [List.get?_eq_none] at hx; omega
      | some c =>
          have hy : t.get? i = none := by rw [List.get?_eq_none]; omega
          simp only [hx, hy]
          refine ⟨⟨fun _ j hj1 hj2 => by omega, fun _ => trivial⟩, by simp⟩
  | succ f ih =>
      intro i h hle
      rcases Nat.eq_or_lt_of_le hle with heq | hlt
      · rw [cmpLoop_eq, if_pos (by omega)]
        cases hx : cl.get? i with
        | none => rw [List.get?_eq_none] at hx; omega
        | some c =>
            have hy : t.get? i = none := by rw [List.get?_eq_none]; omega
            simp only [hx, hy]
            refine ⟨⟨fun _ j hj1 hj2 => by omega, fun _ => trivial⟩, by simp⟩
      · rw [cmpLoop_eq, if_pos (by omega)]
        cases hx : cl.get? i with
        | none => rw [List.get?_eq_none] at hx; omega
        | some c =>
            cases hy : t.get? i with
            | none => rw [List.get?_eq_none] at hy; omega
            | some d =>
                simp only [hx, hy]
                by_cases hcd : c = d
                · rw [if_neg (not_not_intro hcd)]
                  refine ⟨?_, (ih (i + 1) (by omega) (by omega)).2⟩
                  rw [(ih (i + 1) (by omega) (by omega)).1]
                  constructor
                  · intro hall j hj1 hj2
                    rcases Nat.eq_or_lt_of_le hj1 with heq | hlt'
                    · rw [← heq, hx, hy, hcd]
                    · exact hall j (by omega) hj2
                  · intro hall j hj1 hj2
                    exact hall j (by omega) hj2
                · rw [if_pos hcd]
                  refine ⟨⟨fun habs => absurd habs (by simp), fun hall => ?_⟩, by simp⟩
                  have := hall i le_rfl hlt
                  rw [hx, hy] at this
                  exact absurd (Option.some.inj this) hcd

/-- Two lists of length 32 agreeing at each `get?` below 32 are equal. -/
theorem eq_of_get?_agree (a b : List Nat) (ha : a.length = 32) (hb : b.length = 32)
    (h : ∀ j, 0 ≤ j → j < 32 → a.get? j = b.get? j) : a = b := by
  apply List.ext_get?
  intro n
  by_cases hn : n < 32
  · exact h n (by omega) hn
  · rw [List.get?_eq_none.2 (by omega), List.get?_eq_none.2 (by omega)]

/-- `Decode` succeeds on a long-enough candidate whose digest is the trusted
32-byte hash, and splits off the 32-byte trailer. -/
theorem Decode_ok_of (t cand : List Nat) (hlen : 32 < cand.length) (ht : t.length = 32)
    (hh : sha256 cand = t) :
    Decode t cand = .ok (cand.take (cand.length - 32)) (cand.drop (cand.length - 32)) := by
  rw [Decode, if_neg (by push_cast; omega), hh, cmpLoop_self t ht 0]

/-- `Decode` rejects any candidate of at most 32 bytes as too short. -/
theorem Decode_tooShort (t cand : List Nat) (h : cand.length ≤ 32) :
    Decode t cand = .tooShort cand.length := by
  rw [Decode, if_pos (by push_cast; omega)]

/-- `Decode` reports `VerificationFailed` on a long-enough candidate whose
digest differs from the trusted 32-byte hash. -/
theorem Decode_fail_of (t cand : List Nat) (hlen : 32 < cand.length) (ht : t.length = 32)
    (hh : sha256 cand ≠ t) : Decode t cand = .verificationFailed := by
  rw [Decode, if_neg (by push_cast; omega)]
  have hchar := cmpLoop_char32 (sha256 cand) t (sha256_length cand) ht 0
  have hne : ¬∀ j, 0 ≤ j → j < 32 → (sha256 cand).get? j = t.get? j := fun hall =>
    hh (eq_of_get?_agree _ _ (sha256_length cand) ht hall)
  cases hval : cmpLoop (sha256 cand) t 0 with
  | allEqual => exact absurd (hchar.1.mp hval) hne
  | mismatch => rfl
  | oob => exact absurd hval hchar.2

/-- Pre-processing the empty file with `BlockSize = 1`: Go computes
`numBlocks = 0` and the loop never runs. -/
theorem PreProcess_empty_one :
    Encoder.PreProcess [] (1 : Int) = .ok ⟨[], 1, 0, 1, [], .nil⟩ := rfl

/-- Pre-processing the empty file with `BlockSize ≥ 2`: Go computes
`numBlocks = 1`, `highestBlockSize = 0`, and writes the single hash
`SHA256(zero32)` under index 0. -/
theorem PreProcess_empty (bs : Nat) (hb : 2 ≤ bs) :
    Encoder.PreProcess [] (bs : Int) =
      .ok ⟨[], (bs : Int), 1, 0, [(Int.ofNat 0, sha256 zero32)], .nil⟩ := by
  have hc : Encoder.coerceBlockSize (bs : Int) = (bs : Int) := if_neg (by omega)
  have hdiv : Int.tdiv (((List.length ([] : List Nat) : Nat) : Int) - 1) (bs : Int) + 1 = 1 := by
    have h1 : (((List.length ([] : List Nat) : Nat) : Int) - 1) = -1 := by simp
    rw [h1]
    have h2 : Int.tdiv (-1) (bs : Int) = -((1 / bs : Nat) : Int) := rfl
    rw [h2, Nat.div_eq_of_lt (by omega)]
    simp
  have hmod : Int.tmod (((List.length ([] : List Nat) : Nat) : Int) - 1) (bs : Int) + 1 = 0 := by
    have h1 : (((List.length ([] : List Nat) : Nat) : Int) - 1) = -1 := by simp
    rw [h1]
    have h2 : Int.tmod (-1) (bs : Int) = -((1 % bs : Nat) : Int) := rfl
    rw [h2, Nat.mod_eq_of_lt (by omega)]
    simp
  simp only [Encoder.PreProcess, Encoder.getBlockInfo, hc, hdiv, hmod]
  simp [ppLoop, readBlock, zero32]

/-- The block appended with its trailer hashes back to the chain hash of its
own index: exactly what `Decode` will verify. -/
theorem candidate_hash (file : List Nat) (bs nb hbs : Nat) (r : Nat) (h1 : 1 ≤ r) (hr : r ≤ nb)
    (hnb : 1 ≤ nb) :
    sha256 (specBlock file bs nb hbs (r - 1) ++
        (if r = nb then zero32 else chainHash file bs nb hbs r)) =
      chainHash file bs nb hbs (r - 1) := by
  by_cases h : r = nb
  · rw [if_pos h, h]
    exact (chainHash_last file bs nb hbs).symm
  · rw [if_neg h]
    have hstep := chainHash_step file bs nb hbs (r - 1) (by omega)
    rw [show r - 1 + 1 = r from by omega] at hstep
    exact hstep.symm

/-- The serve-and-verify loop: starting at request `r` with the trusted hash
of block `r-1`, draining the remaining `nb + 1 - r` requests verifies every
response and concatenates to the tail of the file from block `r-1` on. -/
theorem serveLoop_spec (file : List Nat) (bs nb hbs : Nat) (hb : 1 ≤ bs)
    (hcover : bs * (nb - 1) + hbs = file.length)
    (hhbs1 : 1 ≤ hbs) (hhbsbs : hbs ≤ bs) (hnb : 1 ≤ nb) :
    ∀ fuel r hdl, hdl ≠ .closed → 1 ≤ r → r + fuel = nb + 1 →
      serveLoop (mkE file bs nb hbs hdl) (chainHash file bs nb hbs (r - 1)) (r : Int) fuel =
        some (file.drop (bs * (r - 1))) := by
  intro fuel
  induction fuel with
  | zero =>
      intro r hdl hne h1 h2
      have hr : r = nb + 1 := by omega
      have hnb' : bs * nb = bs * (nb - 1) + bs := by
        have h' : nb = (nb - 1) + 1 := by omega
        conv_lhs => rw [h']
        ring
      rw [serveLoop, hr]
      rw [show nb + 1 - 1 = nb from by omega]
      rw [List.drop_eq_nil_of_le (by omega)]
  | succ fuel ih =>
      intro r hdl hne h1 h2
      have hrle : r ≤ nb := by omega
      rw [serveLoop,
        Request_inrange file bs nb hbs hdl hne hb hcover hhbs1 hhbsbs (by omega) r h1 hrle]
      have hXlen : (if r = nb then zero32 else chainHash file bs nb hbs r).length = 32 := by
        by_cases h : r = nb
        · rw [if_pos h]; exact zero32_length
        · rw [if_neg h]; exact chainHash_length file bs nb hbs r
      have hsblen : 1 ≤ (specBlock file bs nb hbs (r - 1)).length := by
        rw [specBlock_length file bs nb hbs (r - 1) hcover hhbsbs (by omega)]
        by_cases h : r - 1 = nb - 1
        · rw [if_pos h]; omega
        · rw [if_neg h]; omega
      have hBlen : 32 <
          (specBlock file bs nb hbs (r - 1) ++
            (if r = nb then zero32 else chainHash file bs nb hbs r)).length := by
        rw [List.length_append]
        omega
      have hdec := Decode_ok_of _ _ hBlen (chainHash_length file bs nb hbs (r - 1))
        (candidate_hash file bs nb hbs r h1 hrle (by omega))
      rw [(split_trailer _ _ hXlen).1, (split_trailer _ _ hXlen).2] at hdec
      simp only [hdec, retBytes, okSplit, Option.some_bind]
      by_cases h : r = nb
      · have hf0 : fuel = 0 := by omega
        rw [hf0, serveLoop]
        have hdroplen : (file.drop (bs * (r - 1))).length ≤ hbs := by
          rw [List.length_drop, h]
          omega
        have hsb : specBlock file bs nb hbs (r - 1) = file.drop (bs * (r - 1)) := by
          rw [specBlock, if_pos (show r - 1 = nb - 1 by omega)]
          exact List.take_of_length_le hdroplen
        rw [hsb]
        simp
      · rw [if_neg h]
        rw [show (r : Int) + 1 = ((r + 1 : Nat) : Int) by push_cast; ring]
        have ihr := ih (r + 1) .opened (by simp) (by omega) (by omega)
        rw [show r + 1 - 1 = r from by omega] at ihr
        rw [ihr]
        have hbsr : bs * (r - 1) + bs = bs * r := by
          conv_rhs => rw [show r = (r - 1) + 1 from by omega]
          ring
        have hsplit : specBlock file bs nb hbs (r - 1) ++ file.drop (bs * r) =
            file.drop (bs * (r - 1)) := by
          rw [specBlock, if_neg (show ¬r - 1 = nb - 1 by omega), ← hbsr]
          exact drop_chunk file (bs * (r - 1)) bs
        simp [hsplit]

/-! ## Claim theorems -/

/-- **C1.** For every regular file (any byte list, the empty file included)
and positive `BlockSize`, the cache-miss pass of `PreProcess` iterates the
block indexes from `numBlocks - 1` down to `0` and persists under each index
`i` the chain hash defined by `hash(numBlocks-1) = SHA256(block[numBlocks-1]
++ zero32)` and `hash(i) = SHA256(block[i] ++ hash(i+1))` — the function
`chainHash`, whose defining recurrences are `chainHash_last` and
`chainHash_step`. The cache comes out as exactly that descending write list,
and every index below `numBlocks` looks up to its chain hash. -/
theorem C1_preprocess_builds_chain (fileData : List Nat) (blockSize : Int)
    (hb : 0 < blockSize) (e : Encoder)
    (hpp : Encoder.PreProcess fileData blockSize = .ok e) :
    e.cache = chainWrites fileData blockSize.toNat e.numBlocks.toNat
        e.highestBlockSize.toNat e.numBlocks.toNat ∧
    ∀ i : Nat, i < e.numBlocks.toNat →
      lookupC e.cache (Int.ofNat i) =
        some (chainHash fileData blockSize.toNat e.numBlocks.toNat
          e.highestBlockSize.toNat i) := by
  obtain ⟨bs, rfl⟩ : ∃ bsN : Nat, blockSize = (bsN : Int) := ⟨blockSize.toNat, by omega⟩
  have hbs1 : 1 ≤ bs := by omega
  by_cases hf : fileData = []
  · subst hf
    by_cases h1 : bs = 1
    · subst h1
      rw [Nat.cast_one, PreProcess_empty_one] at hpp
      rw [← Except.ok.inj hpp]
      exact ⟨by simp [chainWrites], fun i hi => by simp at hi⟩
    · rw [PreProcess_empty bs (by omega)] at hpp
      rw [← Except.ok.inj hpp]
      have hch : chainHash [] bs 1 0 0 = sha256 zero32 := by
        rw [chainHash]
        simp [chainFrom, specBlock]
      constructor
      · simp only [Int.toNat_ofNat, Int.toNat_one, Int.toNat_zero]
        simp [chainWrites, hch, List.range_succ]
      · intro i hi
        simp only [Int.toNat_one] at hi
        have hi0 : i = 0 := by omega
        subst hi0
        simp only [Int.toNat_ofNat, Int.toNat_one, Int.toNat_zero, hch]
        simp [lookupC]
  · have hf1 : 1 ≤ fileData.length := by
      have := List.length_pos.mpr hf
      omega
    rw [PreProcess_ok fileData bs hbs1 hf1] at hpp
    rw [← Except.ok.inj hpp]
    refine ⟨by simp only [mkE, Int.toNat_ofNat], fun i hi => ?_⟩
    simp only [mkE, Int.toNat_ofNat] at hi ⊢
    exact lookup_chainWrites _ _ _ _ _ i hi

/-- Witness for C1 at the one-byte file `[1]` with `BlockSize = 2`. -/
theorem C1_witness :
    (0 : Int) < 2 ∧
    Encoder.PreProcess [1] 2 = .ok ((Encoder.PreProcess [1] 2).toOption.getD default) ∧
    (((Encoder.PreProcess [1] 2).toOption.getD default).cache =
        chainWrites [1] (2 : Int).toNat
          ((Encoder.PreProcess [1] 2).toOption.getD default).numBlocks.toNat
          ((Encoder.PreProcess [1] 2).toOption.getD default).highestBlockSize.toNat
          ((Encoder.PreProcess [1] 2).toOption.getD default).numBlocks.toNat ∧
      ∀ i : Nat, i < ((Encoder.PreProcess [1] 2).toOption.getD default).numBlocks.toNat →
        lookupC ((Encoder.PreProcess [1] 2).toOption.getD default).cache (Int.ofNat i) =
          some (chainHash [1] (2 : Int).toNat
            ((Encoder.PreProcess [1] 2).toOption.getD default).numBlocks.toNat
            ((Encoder.PreProcess [1] 2).toOption.getD default).highestBlockSize.toNat i)) :=
  ⟨by decide, rfl, C1_preprocess_builds_chain [1] 2 (by decide) _ rfl⟩

/-- **C2, counterexample.** The claim serves requests `0 .. numBlocks+1` and
asserts every step succeeds. On the 3-byte file `[1,2,3]` with
`BlockSize = 1`, `numBlocks = 3`, and request `numBlocks + 1 = 4` already
fails with `io.EOF` carrying no bytes — there is nothing to feed the
Verifier, so the claimed sequence cannot succeed at every step. -/
theorem C2_counterexample :
    ((Encoder.PreProcess [1, 2, 3] 1).toOption.getD default).numBlocks = 3 ∧
    (Encoder.Request ((Encoder.PreProcess [1, 2, 3] 1).toOption.getD default) 4).1 =
      .ret none (some .eof) :=
  ⟨rfl, rfl⟩

/-- **C2, amended.** For every nonempty file whose chain has been built and
positive block size: request 0 returns the root hash; then serving requests
`1 .. numBlocks` (one per block — request `numBlocks` is already the last,
zero-padded one) through the Verifier in order, using request 0's root hash
as the initial trusted hash and each verified suffix as the next trusted
hash, succeeds at every step, and the verified blocks concatenated in index
order reproduce the original file bytes exactly. -/
theorem C2_round_trip (fileData : List Nat) (blockSize : Int) (hb : 0 < blockSize)
    (hne : fileData ≠ []) (e : Encoder)
    (hpp : Encoder.PreProcess fileData blockSize = .ok e) :
    (Encoder.Request e 0).1 =
      .ret (some (chainHash fileData blockSize.toNat e.numBlocks.toNat
        e.highestBlockSize.toNat 0)) none ∧
    serveLoop e (chainHash fileData blockSize.toNat e.numBlocks.toNat
        e.highestBlockSize.toNat 0) 1 e.numBlocks.toNat = some fileData := by
  obtain ⟨bs, rfl⟩ : ∃ bsN : Nat, blockSize = (bsN : Int) := ⟨blockSize.toNat, by omega⟩
  have hbs1 : 1 ≤ bs := by omega
  have hf1 : 1 ≤ fileData.length := by
    have := List.length_pos.mpr hne
    omega
  rw [PreProcess_ok fileData bs hbs1 hf1] at hpp
  rw [← Except.ok.inj hpp]
  simp only [mkE_numBlocks, mkE_highestBlockSize, Int.toNat_ofNat]
  have hcover : bs * ((fileData.length - 1) / bs + 1 - 1) + ((fileData.length - 1) % bs + 1) =
      fileData.length := block_cover _ _ hf1
  have hhbs1 : 1 ≤ (fileData.length - 1) % bs + 1 := Nat.le_add_left 1 _
  have hhbsbs : (fileData.length - 1) % bs + 1 ≤ bs := hbs_le_bs _ _ hbs1
  have hnb : 1 ≤ (fileData.length - 1) / bs + 1 := Nat.le_add_left 1 _
  constructor
  · rw [Request_root fileData bs _ _ .nil hnb]
  · have hs := serveLoop_spec fileData bs ((fileData.length - 1) / bs + 1)
      ((fileData.length - 1) % bs + 1) hbs1 hcover hhbs1 hhbsbs hnb
      ((fileData.length - 1) / bs + 1) 1 .nil (by simp) le_rfl (by omega)
    rw [show ((1 : Nat) : Int) = (1 : Int) from rfl] at hs
    rw [show (1 : Nat) - 1 = 0 from rfl] at hs
    rw [hs]
    rw [show bs * 0 = 0 from rfl, List.drop_zero]

/-- Witness for C2 at the one-byte file `[5]` with `BlockSize = 1`. -/
theorem C2_witness :
    (0 : Int) < 1 ∧ ([5] : List Nat) ≠ [] ∧
    Encoder.PreProcess [5] 1 = .ok ((Encoder.PreProcess [5] 1).toOption.getD default) ∧
    ((Encoder.Request ((Encoder.PreProcess [5] 1).toOption.getD default) 0).1 =
      .ret (some (chainHash [5] (1 : Int).toNat
        ((Encoder.PreProcess [5] 1).toOption.getD default).numBlocks.toNat
        ((Encoder.PreProcess [5] 1).toOption.getD default).highestBlockSize.toNat 0)) none ∧
     serveLoop ((Encoder.PreProcess [5] 1).toOption.getD default)
       (chainHash [5] (1 : Int).toNat
         ((Encoder.PreProcess [5] 1).toOption.getD default).numBlocks.toNat
         ((Encoder.PreProcess [5] 1).toOption.getD default).highestBlockSize.toNat 0) 1
       ((Encoder.PreProcess [5] 1).toOption.getD default).numBlocks.toNat = some [5]) :=
  ⟨by decide, by decide, rfl, C2_round_trip [5] 1 (by decide) (by decide) _ rfl⟩

/-- **C3.** For a 32-byte trusted hash and any candidate: `Decode` fails
with the too-short error exactly when the candidate has at most 32 bytes;
otherwise it fails with `VerificationFailed` exactly when `SHA256(candidate)`
differs from the trusted hash (equivalently, differs at some one of the 32
byte positions); and on success it returns exactly the prefix up to
`length - 32` as the block and the 32-byte suffix as the next trusted hash. -/
theorem C3_decode_spec (trusted cand : List Nat) (ht : trusted.length = 32) :
    (Decode trusted cand = .tooShort cand.length ↔ cand.length ≤ 32) ∧
    (Decode trusted cand = .verificationFailed ↔
      32 < cand.length ∧ sha256 cand ≠ trusted) ∧
    (sha256 cand ≠ trusted ↔ ∃ j, j < 32 ∧ (sha256 cand).get? j ≠ trusted.get? j) ∧
    (32 < cand.length → sha256 cand = trusted →
      Decode trusted cand = .ok (cand.take (cand.length - 32)) (cand.drop (cand.length - 32))) := by
  have hbytes : (sha256 cand ≠ trusted ↔ ∃ j, j < 32 ∧ (sha256 cand).get? j ≠ trusted.get? j) := by
    constructor
    · intro hne
      by_contra hno
      push_neg at hno
      exact hne (eq_of_get?_agree _ _ (sha256_length cand) ht fun j _ hj => hno j hj)
    · rintro ⟨j, hj, hne⟩ heq
      rw [heq] at hne
      exact hne rfl
  by_cases hlen : cand.length ≤ 32
  · rw [Decode_tooShort trusted cand hlen]
    refine ⟨by simp [hlen], by simp; omega, hbytes, fun h _ => by omega⟩
  · have hlen' : 32 < cand.length := by omega
    by_cases hsh : sha256 cand = trusted
    · rw [Decode_ok_of trusted cand hlen' ht hsh]
      exact ⟨by simp; omega, by simp [hsh], hbytes, fun _ _ => rfl⟩
    · rw [Decode_fail_of trusted cand hlen' ht hsh]
      exact ⟨by simp; omega, by simp [hlen', hsh], hbytes, fun _ h => absurd h hsh⟩

/-- Witness for C3 at the 32-zero-byte trusted hash and a 33-byte candidate. -/
theorem C3_witness :
    (List.replicate 32 0 : List Nat).length = 32 ∧
    ((Decode (List.replicate 32 0) (List.replicate 33 7) =
        .tooShort (List.replicate 33 7 : List Nat).length ↔
      (List.replicate 33 7 : List Nat).length ≤ 32) ∧
     (Decode (List.replicate 32 0) (List.replicate 33 7) = .verificationFailed ↔
       32 < (List.replicate 33 7 : List Nat).length ∧
         sha256 (List.replicate 33 7) ≠ List.replicate 32 0) ∧
     (sha256 (List.replicate 33 7) ≠ List.replicate 32 0 ↔
       ∃ j, j < 32 ∧ (sha256 (List.replicate 33 7)).get? j ≠
         (List.replicate 32 0 : List Nat).get? j) ∧
     (32 < (List.replicate 33 7 : List Nat).length →
       sha256 (List.replicate 33 7) = List.replicate 32 0 →
       Decode (List.replicate 32 0) (List.replicate 33 7) =
         .ok ((List.replicate 33 7 : List Nat).take ((List.replicate 33 7 : List Nat).length - 32))
           ((List.replicate 33 7 : List Nat).drop ((List.replicate 33 7 : List Nat).length - 32)))) :=
  ⟨by decide, C3_decode_spec (List.replicate 32 0) (List.replicate 33 7) (by decide)⟩

/-- **C4, counterexample.** For a 10240-byte file with `BlockSize = 1024`,
`PreProcess` does yield `numBlocks = 10` and `highestBlockSize = 1024`, but
request 11 already fails with `io.EOF` and no bytes — so "requests 0 through
11 all succeed, and request 12 is end-of-stream" is false: the stream is one
request shorter than claimed (request 10 is the final, zero-padded one). -/
theorem C4_counterexample :
    ((Encoder.PreProcess (List.replicate 10240 0) 1024).toOption.getD default).numBlocks = 10 ∧
    ((Encoder.PreProcess (List.replicate 10240 0) 1024).toOption.getD
        default).highestBlockSize = 1024 ∧
    (Encoder.Request ((Encoder.PreProcess (List.replicate 10240 0) 1024).toOption.getD default)
        11).1 = .ret none (some .eof) := by
  have hpp : Encoder.PreProcess (List.replicate 10240 0) (1024 : Int) =
      .ok (mkE (List.replicate 10240 0) 1024 10 1024 .nil) := by
    have h := PreProcess_ok (List.replicate 10240 0) 1024 (by omega)
      (by rw [List.length_replicate]; omega)
    rw [List.length_replicate] at h
    rw [show (10240 - 1) / 1024 + 1 = 10 from by norm_num] at h
    rw [show (10240 - 1) % 1024 + 1 = 1024 from by norm_num] at h
    rw [show ((1024 : Nat) : Int) = (1024 : Int) from by norm_cast] at h
    exact h
  rw [hpp]
  simp only [Except.toOption, Option.getD]
  refine ⟨by rw [mkE_numBlocks]; norm_cast, by rw [mkE_highestBlockSize]; norm_cast, ?_⟩
  rw [Request_eof _ 11 (by omega) (by rw [mkE_numBlocks]; norm_num)]

/-- **C4, amended.** After pre-processing a nonempty file: requests
`1 .. numBlocks-1` yield `block ++ chainHash(next)`, request `numBlocks`
yields the final block followed by 32 zero bytes, and every request past
`numBlocks` yields no bytes with the end-of-stream signal. In the concrete
scenario of a 10240-byte file with `BlockSize = 1024`, `numBlocks = 10` and
`highestBlockSize = 1024` (so requests 0..10 succeed, request 10 carries the
zero trailer, and request 11 is end-of-stream). -/
theorem C4_request_protocol (fileData : List Nat) (blockSize : Int) (hb : 0 < blockSize)
    (hne : fileData ≠ []) (e : Encoder)
    (hpp : Encoder.PreProcess fileData blockSize = .ok e) :
    (∀ n : Nat, 1 ≤ n → n < e.numBlocks.toNat →
      (Encoder.Request e (n : Int)).1 =
        .ret (some (specBlock fileData blockSize.toNat e.numBlocks.toNat
            e.highestBlockSize.toNat (n - 1) ++
          chainHash fileData blockSize.toNat e.numBlocks.toNat
            e.highestBlockSize.toNat n)) none) ∧
    ((Encoder.Request e (e.numBlocks.toNat : Int)).1 =
      .ret (some (specBlock fileData blockSize.toNat e.numBlocks.toNat
        e.highestBlockSize.toNat (e.numBlocks.toNat - 1) ++ zero32)) none) ∧
    (∀ n : Nat, e.numBlocks.toNat < n →
      (Encoder.Request e (n : Int)).1 = .ret none (some .eof)) ∧
    (fileData.length = 10240 → blockSize = 1024 →
      e.numBlocks = 10 ∧ e.highestBlockSize = 1024) := by
  obtain ⟨bs, rfl⟩ : ∃ bsN : Nat, blockSize = (bsN : Int) := ⟨blockSize.toNat, by omega⟩
  have hbs1 : 1 ≤ bs := by omega
  have hf1 : 1 ≤ fileData.length := by
    have := List.length_pos.mpr hne
    omega
  rw [PreProcess_ok fileData bs hbs1 hf1] at hpp
  rw [← Except.ok.inj hpp]
  simp only [mkE_numBlocks, mkE_highestBlockSize, Int.toNat_ofNat]
  have hcover : bs * ((fileData.length - 1) / bs + 1 - 1) + ((fileData.length - 1) % bs + 1) =
      fileData.length := block_cover _ _ hf1
  have hhbs1 : 1 ≤ (fileData.length - 1) % bs + 1 := Nat.le_add_left 1 _
  have hhbsbs : (fileData.length - 1) % bs + 1 ≤ bs := hbs_le_bs _ _ hbs1
  have hnb1 : 1 ≤ (fileData.length - 1) / bs + 1 := Nat.le_add_left 1 _
  refine ⟨?_, ?_, ?_, ?_⟩
  · intro n h1 hn
    rw [Request_inrange fileData bs _ _ .nil (by simp) hbs1 hcover hhbs1 hhbsbs hnb1 n h1
      (by omega)]
    rw [if_neg (by omega)]
  · rw [Request_inrange fileData bs _ _ .nil (by simp) hbs1 hcover hhbs1 hhbsbs hnb1
      ((fileData.length - 1) / bs + 1) hnb1 le_rfl]
    rw [if_pos rfl]
  · intro n hn
    rw [Request_eof _ _ (by omega) (by rw [mkE_numBlocks]; omega)]
  · intro h10240 hbs1024
    have hbs' : bs = 1024 := by omega
    subst hbs'
    rw [h10240]
    decide

/-- Witness for C4 at the two-byte file `[8, 9]` with `BlockSize = 1`. -/
theorem C4_witness :
    (0 : Int) < 1 ∧ ([8, 9] : List Nat) ≠ [] ∧
    Encoder.PreProcess [8, 9] 1 = .ok ((Encoder.PreProcess [8, 9] 1).toOption.getD default) ∧
    ((∀ n : Nat, 1 ≤ n → n < ((Encoder.PreProcess [8, 9] 1).toOption.getD
          default).numBlocks.toNat →
      (Encoder.Request ((Encoder.PreProcess [8, 9] 1).toOption.getD default) (n : Int)).1 =
        .ret (some (specBlock [8, 9] (1 : Int).toNat
            ((Encoder.PreProcess [8, 9] 1).toOption.getD default).numBlocks.toNat
            ((Encoder.PreProcess [8, 9] 1).toOption.getD default).highestBlockSize.toNat (n - 1) ++
          chainHash [8, 9] (1 : Int).toNat
            ((Encoder.PreProcess [8, 9] 1).toOption.getD default).numBlocks.toNat
            ((Encoder.PreProcess [8, 9] 1).toOption.getD default).highestBlockSize.toNat n))
          none) ∧
     ((Encoder.Request ((Encoder.PreProcess [8, 9] 1).toOption.getD default)
        (((Encoder.PreProcess [8, 9] 1).toOption.getD default).numBlocks.toNat : Int)).1 =
      .ret (some (specBlock [8, 9] (1 : Int).toNat
        ((Encoder.PreProcess [8, 9] 1).toOption.getD default).numBlocks.toNat
        ((Encoder.PreProcess [8, 9] 1).toOption.getD default).highestBlockSize.toNat
        (((Encoder.PreProcess [8, 9] 1).toOption.getD default).numBlocks.toNat - 1) ++
          zero32)) none) ∧
     (∀ n : Nat, ((Encoder.PreProcess [8, 9] 1).toOption.getD default).numBlocks.toNat < n →
      (Encoder.Request ((Encoder.PreProcess [8, 9] 1).toOption.getD default) (n : Int)).1 =
        .ret none (some .eof)) ∧
     (([8, 9] : List Nat).length = 10240 → (1 : Int) = 1024 →
       ((Encoder.PreProcess [8, 9] 1).toOption.getD default).numBlocks = 10 ∧
       ((Encoder.PreProcess [8, 9] 1).toOption.getD default).highestBlockSize = 1024)) :=
  ⟨by decide, by decide, rfl, C4_request_protocol [8, 9] 1 (by decide) (by decide) _ rfl⟩

/-- **C5, counterexample.** At `fileSize = 0` (an empty regular file) with
`blockSize = 1024`, Go's truncated arithmetic gives `highestBlockSize = 0`,
outside the claimed interval `(0, blockSize]`, and `numBlocks = 1` differs
from the claimed closed form `floor((fileSize-1)/blockSize) + 1 = 0`. -/
theorem C5_counterexample :
    (Encoder.getBlockInfo 1024 0).2 = 0 ∧
    (Encoder.getBlockInfo 1024 0).1 ≠ Int.ediv (0 - 1) 1024 + 1 := by
  decide

/-- **C5, amended.** For every `fileSize ≥ 1` and positive `blockSize`, the
computed `numBlocks` equals `floor((fileSize-1)/blockSize) + 1` (truncation
and floor agree on these nonnegative operands) and is at least 1, and
`highestBlockSize = ((fileSize-1) mod blockSize) + 1` lies in
`(0, blockSize]` — in particular it is never zero, even when `fileSize` is
an exact multiple of `blockSize`. For `fileSize = 0` the Go formulas escape
these bounds (see the counterexample). -/
theorem C5_block_info (fileSize blockSize : Int) (hf : 1 ≤ fileSize) (hb : 0 < blockSize) :
    (Encoder.getBlockInfo blockSize fileSize).1 = Int.ediv (fileSize - 1) blockSize + 1 ∧
    1 ≤ (Encoder.getBlockInfo blockSize fileSize).1 ∧
    0 < (Encoder.getBlockInfo blockSize fileSize).2 ∧
    (Encoder.getBlockInfo blockSize fileSize).2 ≤ blockSize := by
  obtain ⟨fs, rfl⟩ : ∃ n : Nat, fileSize = (n : Int) := ⟨fileSize.toNat, by omega⟩
  obtain ⟨bs, rfl⟩ : ∃ n : Nat, blockSize = (n : Int) := ⟨blockSize.toNat, by omega⟩
  have hfs1 : 1 ≤ fs := by omega
  have hbs1 : 1 ≤ bs := by omega
  rw [getBlockInfo_pos fs bs hfs1]
  dsimp only
  have hediv : Int.ediv ((fs : Int) - 1) (bs : Int) = (((fs - 1) / bs : Nat) : Int) := by
    rw [show (fs : Int) - 1 = ((fs - 1 : Nat) : Int) by omega]
    rfl
  refine ⟨?_, by exact_mod_cast Nat.le_add_left 1 ((fs - 1) / bs), ?_, ?_⟩
  · rw [hediv]
    push_cast
    ring
  · exact_mod_cast Nat.succ_pos ((fs - 1) % bs)
  · exact_mod_cast hbs_le_bs fs bs hbs1

/-- Witness for C5 at `fileSize = 10240`, `blockSize = 1024`. -/
theorem C5_witness :
    (1 : Int) ≤ 10240 ∧ (0 : Int) < 1024 ∧
    ((Encoder.getBlockInfo 1024 10240).1 = Int.ediv (10240 - 1) 1024 + 1 ∧
     1 ≤ (Encoder.getBlockInfo 1024 10240).1 ∧
     0 < (Encoder.getBlockInfo 1024 10240).2 ∧
     (Encoder.getBlockInfo 1024 10240).2 ≤ 1024) :=
  ⟨by decide, by decide, C5_block_info 10240 1024 (by decide) (by decide)⟩

/-- **C6.** For every encoder state and request number `n ≥ 1` with
`n - 1 ≥ numBlocks`, `Request` fails with the end-of-stream signal, returns
no bytes, and leaves the state untouched; consequently every subsequent
request `m ≥ n` made on the resulting state again yields end-of-stream with
no bytes — the server never rewinds. -/
theorem C6_eof_idempotent (e : Encoder) (n : Int) (h1 : 1 ≤ n) (h2 : e.numBlocks ≤ n - 1) :
    Encoder.Request e n = (.ret none (some .eof), e) ∧
    ∀ m : Int, n ≤ m →
      Encoder.Request (Encoder.Request e n).2 m = (.ret none (some .eof), e) := by
  have h := Request_eof e n h1 h2
  refine ⟨h, fun m hm => ?_⟩
  have h2' : (Encoder.Request e n).2 = e := by rw [h]
  rw [h2']
  exact Request_eof e m (by omega) (by omega)

/-- Witness for C6 at a fresh zero-block encoder and `n = 1`. -/
theorem C6_witness :
    (1 : Int) ≤ 1 ∧ (⟨[], 0, 0, 0, [], .nil⟩ : Encoder).numBlocks ≤ 1 - 1 ∧
    (Encoder.Request ⟨[], 0, 0, 0, [], .nil⟩ 1 =
      (.ret none (some .eof), (⟨[], 0, 0, 0, [], .nil⟩ : Encoder)) ∧
     ∀ m : Int, 1 ≤ m →
       Encoder.Request (Encoder.Request ⟨[], 0, 0, 0, [], .nil⟩ 1).2 m =
         (.ret none (some .eof), (⟨[], 0, 0, 0, [], .nil⟩ : Encoder))) :=
  ⟨by decide, by decide, C6_eof_idempotent ⟨[], 0, 0, 0, [], .nil⟩ 1 (by decide) (by decide)⟩

/-- `Request` never closes the stream handle: every exit path returns either
the unchanged state or the state with the handle freshly opened. -/
theorem Request_never_closes (e : Encoder) (n : Int) (h : e.handle ≠ .closed) :
    ((Encoder.Request e n).2).handle ≠ .closed := by
  have hsnd : (Encoder.Request e n).2 = e ∨
      (Encoder.Request e n).2 = (if e.handle = .nil then { e with handle := .opened } else e) := by
    rw [Encoder.Request]
    by_cases h0 : n = 0
    · rw [if_pos h0]
      exact .inl rfl
    · rw [if_neg h0]
      by_cases h1 : e.numBlocks ≤ n - 1
      · rw [if_pos h1]
        exact .inl rfl
      · rw [if_neg h1]
        by_cases h2 : (if e.handle = .nil then { e with handle := .opened } else e).handle =
            FileHandle.closed
        · rw [if_pos h2]
          exact .inr rfl
        · rw [if_neg h2]
          by_cases h3 : e.BlockSize * (n - 1) < 0
          · rw [if_pos h3]
            exact .inr rfl
          · rw [if_neg h3]
            by_cases h4 : (if n - 1 = e.numBlocks - 1 then e.highestBlockSize else e.BlockSize) < 0
            · rw [if_pos h4]
              exact .inr rfl
            · rw [if_neg h4]
              by_cases h5 : 0 < (if n - 1 = e.numBlocks - 1 then e.highestBlockSize
                    else e.BlockSize).toNat ∧
                  e.fileData.length ≤ (e.BlockSize * (n - 1)).toNat
              · rw [if_pos h5]
                exact .inr rfl
              · rw [if_neg h5]
                by_cases h6 : n - 1 ≠ e.numBlocks - 1
                · rw [if_pos h6]
                  cases lookupC e.cache n with
                  | some hh => exact .inr rfl
                  | none => exact .inr rfl
                · rw [if_neg h6]
                  exact .inr rfl
  rcases hsnd with heq | heq <;> rw [heq]
  · exact h
  · by_cases hn : e.handle = .nil
    · rw [if_pos hn]
      simp
    · rw [if_neg hn]
      exact h

/-- **C8.** The claim is the documented behaviour (the `Request` doc comment:
"On the final request, the file is closed"), and the code breaks it: after
pre-processing (which leaves the streaming handle nil — the open is lazy),
serving the final request `numBlocks` leaves the handle *open*, and no
subsequent request — end-of-stream included — ever moves it to the closed
state. Only the caller's explicit `Close` releases it. -/
theorem C8_handle_left_open (fileData : List Nat) (blockSize : Int) (hb : 0 < blockSize)
    (hne : fileData ≠ []) (e : Encoder)
    (hpp : Encoder.PreProcess fileData blockSize = .ok e) :
    e.handle = .nil ∧
    ((Encoder.Request e (e.numBlocks.toNat : Int)).2).handle = .opened ∧
    ∀ n : Int,
      ((Encoder.Request ((Encoder.Request e (e.numBlocks.toNat : Int)).2) n).2).handle ≠
        .closed := by
  obtain ⟨bs, rfl⟩ : ∃ bsN : Nat, blockSize = (bsN : Int) := ⟨blockSize.toNat, by omega⟩
  have hbs1 : 1 ≤ bs := by omega
  have hf1 : 1 ≤ fileData.length := by
    have := List.length_pos.mpr hne
    omega
  rw [PreProcess_ok fileData bs hbs1 hf1] at hpp
  rw [← Except.ok.inj hpp]
  have hcover : bs * ((fileData.length - 1) / bs + 1 - 1) + ((fileData.length - 1) % bs + 1) =
      fileData.length := block_cover _ _ hf1
  have hhbs1 : 1 ≤ (fileData.length - 1) % bs + 1 := Nat.le_add_left 1 _
  have hhbsbs : (fileData.length - 1) % bs + 1 ≤ bs := hbs_le_bs _ _ hbs1
  have hnb1 : 1 ≤ (fileData.length - 1) / bs + 1 := Nat.le_add_left 1 _
  have hreq := Request_inrange fileData bs ((fileData.length - 1) / bs + 1)
    ((fileData.length - 1) % bs + 1) .nil (by simp) hbs1 hcover hhbs1 hhbsbs hnb1
    ((fileData.length - 1) / bs + 1) hnb1 le_rfl
  refine ⟨rfl, ?_, ?_⟩
  · rw [mkE_numBlocks, Int.toNat_ofNat, hreq]
    exact mkE_handle _ _ _ _ _
  · intro n
    rw [mkE_numBlocks, Int.toNat_ofNat, hreq]
    exact Request_never_closes _ n
      (show (mkE fileData bs ((fileData.length - 1) / bs + 1) ((fileData.length - 1) % bs + 1)
          FileHandle.opened).handle ≠ FileHandle.closed by rw [mkE_handle]; simp)

/-- Witness for C8 at the one-byte file `[3]` with `BlockSize = 4`. -/
theorem C8_witness :
    (0 : Int) < 4 ∧ ([3] : List Nat) ≠ [] ∧
    Encoder.PreProcess [3] 4 = .ok ((Encoder.PreProcess [3] 4).toOption.getD default) ∧
    (((Encoder.PreProcess [3] 4).toOption.getD default).handle = .nil ∧
     ((Encoder.Request ((Encoder.PreProcess [3] 4).toOption.getD default)
        (((Encoder.PreProcess [3] 4).toOption.getD default).numBlocks.toNat : Int)).2).handle =
       .opened ∧
     ∀ n : Int,
       ((Encoder.Request ((Encoder.Request ((Encoder.PreProcess [3] 4).toOption.getD default)
          (((Encoder.PreProcess [3] 4).toOption.getD default).numBlocks.toNat : Int)).2)
          n).2).handle ≠ .closed) :=
  ⟨by decide, by decide, rfl, C8_handle_left_open [3] 4 (by decide) (by decide) _ rfl⟩

/-- A short trusted hash equals the matching-length prefix of a 32-byte
digest exactly when they agree pointwise on that range. -/
theorem take_char (s t : List Nat) (hs : t.length ≤ s.length) :
    t = s.take t.length ↔ ∀ j, j < t.length → s.get? j = t.get? j := by
  constructor
  · intro h j hj
    conv_rhs => rw [h]
    rw [List.get?_take hj]
  · intro h
    apply List.ext_get?
    intro n
    by_cases hn : n < t.length
    · rw [List.get?_take hn]
      exact (h n hn).symm
    · rw [List.get?_eq_none.2 (by omega), List.get?_eq_none.2 (by rw [List.length_take]; omega)]

set_option maxRecDepth 8000 in
/-- **C9, counterexample.** The claim says every sub-32-byte trusted hash
panics the comparison loop for every long-enough candidate. Not so: with the
1-byte trusted hash `[10]` against the 33-byte candidate of sevens — whose
digest starts with byte 9 — the very first comparison already mismatches, so
`Decode` returns `VerificationFailed` and never reaches an out-of-range
index. -/
theorem C9_counterexample :
    Decode [10] (List.replicate 33 7) = .verificationFailed ∧
    Decode [10] (List.replicate 33 7) ≠ .panicked := by
  constructor
  · decide
  · decide

/-- **C9, amended.** `Decode` implicitly requires a 32-byte trusted hash:
for any trusted hash shorter than 32 bytes and candidate longer than 32
bytes, the call panics with an out-of-range index if and only if the trusted
hash is a prefix of `SHA256(candidate)` (every byte of it survives
comparison, so the loop runs off its end — the empty hash always panics);
on any earlier mismatch it returns `VerificationFailed` instead. -/
theorem C9_short_trusted (trusted cand : List Nat) (ht : trusted.length < 32)
    (hc : 32 < cand.length) :
    (Decode trusted cand = .panicked ↔ trusted = (sha256 cand).take trusted.length) ∧
    (trusted ≠ (sha256 cand).take trusted.length →
      Decode trusted cand = .verificationFailed) := by
  rw [Decode, if_neg (by push_cast; omega)]
  have hshort := cmpLoop_short (sha256 cand) trusted (sha256_length cand) ht 0 (Nat.zero_le _)
  have hbridge : (∀ j, 0 ≤ j → j < trusted.length → (sha256 cand).get? j = trusted.get? j) ↔
      trusted = (sha256 cand).take trusted.length := by
    rw [take_char (sha256 cand) trusted (by rw [sha256_length]; omega)]
    exact ⟨fun h j hj => h j (Nat.zero_le j) hj, fun h j _ hj => h j hj⟩
  cases hval : cmpLoop (sha256 cand) trusted 0 with
  | allEqual => exact absurd hval hshort.2
  | mismatch =>
      refine ⟨⟨fun habs => absurd habs (by simp), fun hpre => ?_⟩, fun _ => rfl⟩
      rw [← hbridge] at hpre
      rw [hshort.1.mpr hpre] at hval
      exact absurd hval (by simp)
  | oob =>
      refine ⟨⟨fun _ => hbridge.mp (hshort.1.mp hval), fun _ => rfl⟩, fun hne => ?_⟩
      exact absurd (hbridge.mp (hshort.1.mp hval)) hne

/-- Witness for C9 at the empty trusted hash and a 33-byte candidate: the
empty hash is trivially a prefix, so the call panics. -/
theorem C9_witness :
    ([] : List Nat).length < 32 ∧ 32 < (List.replicate 33 0 : List Nat).length ∧
    ((Decode [] (List.replicate 33 0) = .panicked ↔
        ([] : List Nat) = (sha256 (List.replicate 33 0)).take ([] : List Nat).length) ∧
     (([] : List Nat) ≠ (sha256 (List.replicate 33 0)).take ([] : List Nat).length →
       Decode [] (List.replicate 33 0) = .verificationFailed)) :=
  ⟨by decide, by decide, C9_short_trusted [] (List.replicate 33 0) (by decide) (by decide)⟩

/-- **C10, counterexample.** The claim says `Close` before any block request
dereferences the nil file pointer and panics. It does not: Go's
`(*os.File).Close` checks its receiver and returns `os.ErrInvalid`, so the
call returns an error value normally — here on a freshly constructed
encoder whose handle was never opened. -/
theorem C10_counterexample :
    Encoder.Close ⟨[1], 1, 1, 1, [], .nil⟩ =
      (some .errInvalid, (⟨[1], 1, 1, 1, [], .nil⟩ : Encoder)) := by
  decide

/-- **C10, amended.** Calling `Encoder.Close` before any block request has
been made (the `*os.File` field still nil) returns the `os.ErrInvalid`
error from the standard library's nil-receiver check, with the encoder
unchanged — it neither panics nor succeeds as a no-op. -/
theorem C10_close_nil (e : Encoder) (h : e.handle = .nil) :
    Encoder.Close e = (some .errInvalid, e) := by
  rw [Encoder.Close, h]

/-- Witness for C10 at a fresh encoder. -/
theorem C10_witness :
    (⟨[], 5, 0, 0, [], .nil⟩ : Encoder).handle = .nil ∧
    Encoder.Close ⟨[], 5, 0, 0, [], .nil⟩ =
      (some .errInvalid, (⟨[], 5, 0, 0, [], .nil⟩ : Encoder)) :=
  ⟨rfl, C10_close_nil ⟨[], 5, 0, 0, [], .nil⟩ rfl⟩

end HashPlayer
